import Mathlib

/-!
Verification of the error-tree traversal and field-aggregation engine of the
`ctxerr` repository (packages `joinederr` and `ctxerr`).

The Go data model: an error value may expose `Unwrap() error` (exactly one
successor, a "wrap" node), or `Unwrap() []error` (a list of successors, a
"join" node), or neither (a leaf).  A Go type can define only one method named
`Unwrap`, so the two capabilities are mutually exclusive, which the inductive
type below reflects.  A wrap node whose `Unwrap() error` returns nil behaves
exactly like a leaf in every routine verified here, so leaves cover that case.
Each node additionally carries an opaque payload `α` (in the real code, the
context captured at construction, from which `Fields()` is read); extractor
functions receive the node and may look at the payload.
-/

namespace Ctxerr

/-- The error-tree shape: `leaf` has no successor, `wrap` has exactly one
(`Unwrap() error`), `join` has a list of successors (`Unwrap() []error`). -/
inductive ErrTree (α : Type) : Type where
  | leaf (a : α) : ErrTree α
  | wrap (a : α) (child : ErrTree α) : ErrTree α
  | join (a : α) (children : List (ErrTree α)) : ErrTree α

namespace ErrTree

/-- The payload carried by the node itself (its own `Fields()` data / label). -/
def payload {α : Type} : ErrTree α → α
  | leaf a => a
  | wrap a _ => a
  | join a _ => a

mutual
/-- Number of nodes in the tree, the termination measure for traversal. -/
def size {α : Type} : ErrTree α → Nat
  | leaf _ => 1
  | wrap _ c => 1 + size c
  | join _ cs => 1 + sizeList cs

/-- Total number of nodes in a list of trees. -/
def sizeList {α : Type} : List (ErrTree α) → Nat
  | [] => 0
  | c :: cs => size c + sizeList cs
end

theorem size_pos {α : Type} (t : ErrTree α) : 0 < t.size := by
  cases t <;> simp [size]

theorem sizeList_append {α : Type} (l₁ l₂ : List (ErrTree α)) :
    sizeList (l₁ ++ l₂) = sizeList l₁ + sizeList l₂ := by
  induction l₁ with
  | nil => simp [sizeList]
  | cons c cs ih => simp [sizeList, ih]; omega

end ErrTree

/-!
## The depth-first iterator (`joinederr.go`)

State of `depthFirstUnwrapper`: the `next` candidate (a nil-able error) and
the `nextParent` pending-sibling queue.  `Next()` is translated line by line:
split a join candidate once, return the (possibly just decomposed) candidate,
derive the following candidate from its single successor or the front of the
pending queue.
-/

/-- The mutable state of `depthFirstUnwrapper`: `next` models the nil-able
`next error` field, `nextParent` the `nextParent []error` queue. -/
structure IterState (α : Type) : Type where
  next : Option (ErrTree α)
  nextParent : List (ErrTree α)

/-- The "Split joined errors" block of `Next()`: when the candidate exposes
`Unwrap() []error` with a non-empty result, the first successor becomes the
candidate and the remaining successors are prepended to the pending queue.
The split is performed once, not in a loop. -/
def splitJoin {α : Type} (t : ErrTree α) (parent : List (ErrTree α)) :
    ErrTree α × List (ErrTree α) :=
  match t with
  | ErrTree.join _ (c :: rest) => (c, rest ++ parent)
  | _ => (t, parent)

/-- The `Unwrap() error` capability: a wrap node yields its single (non-nil)
child; leaves and joins yield nothing.  A Go value whose `Unwrap() error`
returns nil is modelled as a leaf, since the iterator treats the two alike. -/
def unwrapOne {α : Type} : ErrTree α → Option (ErrTree α)
  | ErrTree.wrap _ c => some c
  | _ => none

/-- `depthFirstUnwrapper.Next()`: returns the yielded node (nil when the
iterator is exhausted) together with the state after the call. -/
def iterNext {α : Type} (s : IterState α) : Option (ErrTree α) × IterState α :=
  match s.next with
  | none => (none, s)
  | some t =>
    let (r, parent) := splitJoin t s.nextParent
    match unwrapOne r with
    | some c => (some r, ⟨some c, parent⟩)
    | none =>
      match parent with
      | [] => (some r, ⟨none, []⟩)
      | p :: ps => (some r, ⟨some p, ps⟩)

/-- `depthFirstUnwrapper.HasNext()`: `return bfu.next != nil`.  The Go method
only reads the `next` field, so it is a pure function of the state. -/
def hasNext {α : Type} (s : IterState α) : Bool :=
  s.next.isSome

/-- `NewDepthFirstIterator(err)`: the queue starts empty; the root error may
be nil. -/
def NewDepthFirstIterator {α : Type} (err : Option (ErrTree α)) : IterState α :=
  ⟨err, []⟩

/-- Termination measure: total node count held by the state. -/
def stateSize {α : Type} (s : IterState α) : Nat :=
  (match s.next with
   | none => 0
   | some t => t.size) + ErrTree.sizeList s.nextParent

theorem iterNext_yield_isSome {α : Type} (s : IterState α) :
    (iterNext s).1.isSome = s.next.isSome := by
  cases h : s.next with
  | none => simp [iterNext, h]
  | some t =>
    simp only [iterNext, h]
    rcases hs : splitJoin t s.nextParent with ⟨r, parent⟩
    cases hu : unwrapOne r with
    | none => cases parent <;> simp
    | some c => simp

theorem splitJoin_size {α : Type} (t : ErrTree α) (parent : List (ErrTree α)) :
    (splitJoin t parent).1.size + ErrTree.sizeList (splitJoin t parent).2 ≤
      t.size + ErrTree.sizeList parent := by
  cases t with
  | leaf a => simp [splitJoin]
  | wrap a c => simp [splitJoin]
  | join a cs =>
    cases cs with
    | nil => simp [splitJoin]
    | cons c rest =>
      simp [splitJoin, ErrTree.size, ErrTree.sizeList, ErrTree.sizeList_append]
      omega

/-- Each successful `Next()` call strictly decreases the measure. -/
theorem iterNext_size_lt {α : Type} (s : IterState α) (r : ErrTree α)
    (s' : IterState α) (h : iterNext s = (some r, s')) :
    stateSize s' < stateSize s := by
  cases hn : s.next with
  | none => simp [iterNext, hn] at h
  | some t =>
    have hsplit := splitJoin_size t s.nextParent
    simp only [iterNext, hn] at h
    rcases hs : splitJoin t s.nextParent with ⟨r', parent⟩
    rw [hs] at h hsplit
    simp only at h hsplit
    have htpos : 0 < t.size := ErrTree.size_pos t
    cases hu : unwrapOne r' with
    | some c =>
      rw [hu] at h
      cases r' with
      | wrap a ch =>
        simp [unwrapOne] at hu
        cases h
        subst hu
        simp_all [stateSize, ErrTree.size]
        omega
      | leaf a => simp [unwrapOne] at hu
      | join a cs => simp [unwrapOne] at hu
    | none =>
      rw [hu] at h
      have hrpos : 0 < r'.size := ErrTree.size_pos r'
      cases parent with
      | nil =>
        cases h
        simp_all [stateSize, ErrTree.sizeList]
      | cons p ps =>
        cases h
        simp_all [stateSize, ErrTree.sizeList]
        omega

/-- Running the iterator to exhaustion: the list of yielded nodes, in order.
This is the fold the aggregation routines perform one pull at a time. -/
def iterRunState {α : Type} (s : IterState α) : List (ErrTree α) :=
  match h : iterNext s with
  | (none, _) => []
  | (some r, s') => r :: iterRunState s'
termination_by stateSize s
decreasing_by exact iterNext_size_lt s r s' h

/-- The full yield sequence of `NewDepthFirstIterator(err)`. -/
def iterate {α : Type} (err : Option (ErrTree α)) : List (ErrTree α) :=
  iterRunState (NewDepthFirstIterator err)

/-- Fuel-bounded unrolling of the iterator loop, used to evaluate the
traversal on concrete trees. -/
def iterRunFuel {α : Type} (fuel : Nat) (s : IterState α) : List (ErrTree α) :=
  match fuel with
  | 0 => []
  | fuel + 1 =>
    match iterNext s with
    | (none, _) => []
    | (some r, s') => r :: iterRunFuel fuel s'

/-!
## Field maps and the aggregator (`ctxerr.go`: `AllFields`, `HasField`,
`HasCategory`)

A Go `map[string]any` is modelled as an association list with unique keys;
`mapInsert` is map assignment (`m[k] = v`), `lookupKey` is map lookup with its
presence bit.  Within one Go map the keys are unique, so every map iteration
the aggregation code performs produces a result independent of Go's
unspecified map iteration order; the model iterates the association list in
order, a deterministic refinement of the same result.
-/

/-- Map assignment `m[k] = v`: replace the binding in place or append it. -/
def mapInsert {V : Type} (k : String) (v : V) : List (String × V) → List (String × V)
  | [] => [(k, v)]
  | (k', v') :: rest =>
    if k' = k then (k, v) :: rest else (k', v') :: mapInsert k v rest

/-- Map lookup `v, ok := m[k]`. -/
def lookupKey {V : Type} (k : String) : List (String × V) → Option V
  | [] => none
  | (k', v) :: rest => if k' = k then some v else lookupKey k rest

/-- Presence check `_, ok := m[k]`. -/
def containsKey {V : Type} (k : String) (m : List (String × V)) : Bool :=
  (lookupKey k m).isSome

/-- A value in the aggregate returned by `AllFields`: either a plain value
(overwrite policy) or the `[]any` list built for a `FieldsAsSlice` key. -/
inductive AggVal (V : Type) : Type where
  | plain (v : V) : AggVal V
  | list (vs : List V) : AggVal V
deriving DecidableEq

/-- The payload of a node seen by the aggregator: `some fs` when the error
value exposes the `Fields() map[string]any` capability (yielding `fs`), and
`none` when it does not. -/
abbrev Fielded (V : Type) : Type := Option (List (String × V))

/-- `DefaultFieldsFunc`: return the node's `Fields()` when the capability is
present, and nil otherwise (ranging over a nil map visits nothing, so nil and
the empty map are interchangeable here). -/
def DefaultFieldsFunc {V : Type} (t : ErrTree (Fielded V)) : List (String × V) :=
  match t.payload with
  | some fs => fs
  | none => []

/-- The aggregator configuration (`ctxerr.Instance`).  Only the two members
the traversal/aggregation engine reads are modelled: the accumulate-as-list
key set and the ordered extractor list.  The remaining members of the Go
struct (create/handle/field hooks) are never consulted by `AllFields`,
`HasField` or `HasCategory`. -/
structure Instance (V : Type) : Type where
  FieldsAsSlice : List String
  GetFieldsFuncs : List (ErrTree (Fielded V) → List (String × V))

/-- The `fieldFuncs` slice the three query operations build: the configured
extractors, or the single `DefaultFieldsFunc` when none are configured. -/
def effFieldFuncs {V : Type} (cfg : Instance V) :
    List (ErrTree (Fielded V) → List (String × V)) :=
  if cfg.GetFieldsFuncs.isEmpty then [DefaultFieldsFunc] else cfg.GetFieldsFuncs

/-- The per-node field set: `fields := {}` then `fields[k] = v` for every
pair of every extractor's output, extractors in order, so a later extractor
overwrites an earlier one for the same key. -/
def nodeFields {α V : Type} (funcs : List (ErrTree α → List (String × V)))
    (t : ErrTree α) : List (String × V) :=
  funcs.foldl (fun m fn => (fn t).foldl (fun m kv => mapInsert kv.1 kv.2 m) m) []

/-- Folding one key/value pair of a per-node field set into the running
aggregate (the body of the `OUTER` loop of `AllFields`): an accumulate key
appends to its list (created on first occurrence), any other key overwrites.
The `plain` sub-case of an accumulate key cannot arise from the empty initial
aggregate, because an accumulate key is only ever bound to a list; there the
Go type assertion `f[k].([]any)` would panic, and the model leaves the
aggregate unchanged. -/
def aggStep {V : Type} (slices : List String) (f : List (String × AggVal V))
    (kv : String × V) : List (String × AggVal V) :=
  if slices.contains kv.1 then
    match lookupKey kv.1 f with
    | none => mapInsert kv.1 (AggVal.list [kv.2]) f
    | some (AggVal.list vs) => mapInsert kv.1 (AggVal.list (vs ++ [kv.2])) f
    | some (AggVal.plain _) => f
  else
    mapInsert kv.1 (AggVal.plain kv.2) f

/-- Merging one visited node into the running aggregate: extract the per-node
field set, then fold every pair through `aggStep`. -/
def mergeNode {α V : Type} (funcs : List (ErrTree α → List (String × V)))
    (slices : List String) (f : List (String × AggVal V)) (t : ErrTree α) :
    List (String × AggVal V) :=
  (nodeFields funcs t).foldl (aggStep slices) f

/-- The pull-merge loop of `AllFields`: draw nodes from the iterator until it
yields nil, folding each visited node into the aggregate. -/
def allFieldsLoop {α V : Type} (funcs : List (ErrTree α → List (String × V)))
    (slices : List String) (s : IterState α) (f : List (String × AggVal V)) :
    List (String × AggVal V) :=
  match h : iterNext s with
  | (none, _) => f
  | (some r, s') => allFieldsLoop funcs slices s' (mergeNode funcs slices f r)
termination_by stateSize s
decreasing_by exact iterNext_size_lt s r s' h

/-- `Instance.AllFields`: aggregate every visited node's fields, starting
from the (non-nil) empty map. -/
def AllFields {V : Type} (cfg : Instance V) (err : Option (ErrTree (Fielded V))) :
    List (String × AggVal V) :=
  allFieldsLoop (effFieldFuncs cfg) cfg.FieldsAsSlice
    (NewDepthFirstIterator err) []

/-- The loop of `HasField`: pull nodes, return true at the first whose
per-node field set contains the key, false when the iterator yields nil. -/
def hasFieldLoop {α V : Type} (funcs : List (ErrTree α → List (String × V)))
    (field : String) (s : IterState α) : Bool :=
  match h : iterNext s with
  | (none, _) => false
  | (some r, s') =>
    if containsKey field (nodeFields funcs r) then true
    else hasFieldLoop funcs field s'
termination_by stateSize s
decreasing_by exact iterNext_size_lt s r s' h

/-- `Instance.HasField`. -/
def HasField {V : Type} (cfg : Instance V) (err : Option (ErrTree (Fielded V)))
    (field : String) : Bool :=
  hasFieldLoop (effFieldFuncs cfg) field (NewDepthFirstIterator err)

/-- The nodes `HasField` pulls from its iterator before returning, in order:
everything before the first match, plus the matching node itself (or the
whole sequence when nothing matches). -/
def hasFieldVisited {α V : Type} (funcs : List (ErrTree α → List (String × V)))
    (field : String) (s : IterState α) : List (ErrTree α) :=
  match h : iterNext s with
  | (none, _) => []
  | (some r, s') =>
    if containsKey field (nodeFields funcs r) then [r]
    else r :: hasFieldVisited funcs field s'
termination_by stateSize s
decreasing_by exact iterNext_size_lt s r s' h

/-- `FieldKeyCategory`. -/
def FieldKeyCategory : String := "error_category"

/-- The loop of `HasCategory`: pull nodes, return true at the first whose
per-node field set binds `FieldKeyCategory` to a value equal to `category`. -/
def hasCategoryLoop {α V : Type} [DecidableEq V]
    (funcs : List (ErrTree α → List (String × V))) (category : V)
    (s : IterState α) : Bool :=
  match h : iterNext s with
  | (none, _) => false
  | (some r, s') =>
    match lookupKey FieldKeyCategory (nodeFields funcs r) with
    | some c => if c = category then true else hasCategoryLoop funcs category s'
    | none => hasCategoryLoop funcs category s'
termination_by stateSize s
decreasing_by all_goals exact iterNext_size_lt s r s' h

/-- `Instance.HasCategory`. -/
def HasCategory {V : Type} [DecidableEq V] (cfg : Instance V)
    (err : Option (ErrTree (Fielded V))) (category : V) : Bool :=
  hasCategoryLoop (effFieldFuncs cfg) category (NewDepthFirstIterator err)

/-!
## Derived notions used to state the claims
-/

/-- Whether a node reports a non-empty multi-successor list. -/
def isNEJoin {α : Type} : ErrTree α → Bool
  | ErrTree.join _ (_ :: _) => true
  | _ => false

/-- The values bound to `k` in an association list, in order. -/
def allVals {V : Type} (k : String) (m : List (String × V)) : List V :=
  m.filterMap (fun p => if p.1 = k then some p.2 else none)

/-- The values the visited nodes `ns` contribute for key `k`, in visitation
order: each node's per-node field-set value for `k`, when present. -/
def setterVals {α V : Type} (funcs : List (ErrTree α → List (String × V)))
    (k : String) (ns : List (ErrTree α)) : List V :=
  ns.filterMap (fun n => lookupKey k (nodeFields funcs n))

/-!
## Basic lemmas on the map operations
-/

theorem lookupKey_mapInsert_self {V : Type} (k : String) (v : V)
    (m : List (String × V)) : lookupKey k (mapInsert k v m) = some v := by
  induction m with
  | nil => simp [mapInsert, lookupKey]
  | cons p rest ih =>
    rcases p with ⟨k', v'⟩
    by_cases hk : k' = k <;> simp [mapInsert, lookupKey, hk, ih]

theorem lookupKey_mapInsert_ne {V : Type} (k k' : String) (v : V)
    (m : List (String × V)) (h : k' ≠ k) :
    lookupKey k (mapInsert k' v m) = lookupKey k m := by
  induction m with
  | nil => simp [mapInsert, lookupKey, h]
  | cons p rest ih =>
    rcases p with ⟨k'', v''⟩
    simp only [mapInsert]
    by_cases hk : k'' = k'
    · subst hk
      simp [lookupKey, h]
    · simp only [if_neg hk]
      by_cases hkk : k'' = k <;> simp [lookupKey, hkk, ih]

theorem containsKey_eq_any {V : Type} (k : String) (m : List (String × V)) :
    containsKey k m = m.any (fun p => p.1 = k) := by
  induction m with
  | nil => simp [containsKey, lookupKey]
  | cons p rest ih =>
    rcases p with ⟨k', v⟩
    by_cases hk : k' = k <;> simp [containsKey, lookupKey, hk] at ih ⊢ <;>
      simp [ih]

theorem mem_keys_mapInsert {V : Type} (k k' : String) (v : V)
    (m : List (String × V)) :
    k' ∈ (mapInsert k v m).map Prod.fst → k' ∈ m.map Prod.fst ∨ k' = k := by
  induction m with
  | nil =>
    intro h
    simp only [mapInsert, List.map_cons, List.map_nil, List.mem_singleton] at h
    exact Or.inr h
  | cons p rest ih =>
    rcases p with ⟨kp, vp⟩
    intro h
    by_cases hp : kp = k
    · rw [hp] at h ⊢
      simp only [mapInsert, if_pos, List.map_cons, List.mem_cons] at h
      rcases h with h | h
      · exact Or.inr h
      · exact Or.inl (by simp only [List.map_cons, List.mem_cons]; exact Or.inr h)
    · simp only [mapInsert, if_neg hp, List.map_cons, List.mem_cons] at h
      rcases h with h | h
      · exact Or.inl (by simp only [List.map_cons, List.mem_cons]; exact Or.inl h)
      · rcases ih h with h1 | h1
        · exact Or.inl (by simp only [List.map_cons, List.mem_cons]; exact Or.inr h1)
        · exact Or.inr h1

theorem mapInsert_keys_nodup {V : Type} (k : String) (v : V)
    (m : List (String × V)) (h : (m.map Prod.fst).Nodup) :
    ((mapInsert k v m).map Prod.fst).Nodup := by
  induction m with
  | nil => simp [mapInsert]
  | cons p rest ih =>
    rcases p with ⟨k', v'⟩
    simp only [List.map_cons, List.nodup_cons] at h
    by_cases hk : k' = k
    · subst hk
      simpa [mapInsert] using h
    · simp only [mapInsert, hk, if_false, List.map_cons, List.nodup_cons]
      refine ⟨?_, ih h.2⟩
      intro hmem
      rcases mem_keys_mapInsert k k' v rest hmem with h1 | h1
      · exact h.1 h1
      · exact hk h1

theorem foldl_mapInsert_keys_nodup {V : Type} (kvs : List (String × V)) :
    ∀ (m : List (String × V)), (m.map Prod.fst).Nodup →
      ((kvs.foldl (fun m kv => mapInsert kv.1 kv.2 m) m).map Prod.fst).Nodup := by
  induction kvs with
  | nil => intro m h; simpa using h
  | cons kv rest ih =>
    intro m h
    simp only [List.foldl_cons]
    exact ih _ (mapInsert_keys_nodup kv.1 kv.2 m h)

theorem allVals_nil_of_not_mem_keys {V : Type} (k : String)
    (m : List (String × V)) (h : k ∉ m.map Prod.fst) : allVals k m = [] := by
  induction m with
  | nil => rfl
  | cons p rest ih =>
    rcases p with ⟨kp, vp⟩
    simp only [List.map_cons, List.mem_cons, not_or] at h
    simp only [allVals, List.filterMap_cons]
    rw [if_neg (fun he => h.1 he.symm)]
    exact ih h.2

/-- On a map with unique keys, the last (indeed only) value bound to a key is
the looked-up value. -/
theorem allVals_getLast?_of_nodup {V : Type} (k : String)
    (m : List (String × V)) (h : (m.map Prod.fst).Nodup) :
    (allVals k m).getLast? = lookupKey k m := by
  induction m with
  | nil => rfl
  | cons p rest ih =>
    rcases p with ⟨kp, vp⟩
    simp only [List.map_cons, List.nodup_cons] at h
    by_cases hk : kp = k
    · subst hk
      have hrest : allVals kp rest = [] := allVals_nil_of_not_mem_keys kp rest h.1
      simp only [allVals, List.filterMap_cons, if_pos, lookupKey] at hrest ⊢
      rw [hrest]
      rfl
    · simp only [allVals, List.filterMap_cons, if_neg hk, lookupKey]
      exact ih h.2

theorem nodeFields_keys_nodup {α V : Type}
    (funcs : List (ErrTree α → List (String × V)))
    (t : ErrTree α) : ((nodeFields funcs t).map Prod.fst).Nodup := by
  unfold nodeFields
  have h0 : ∀ (fns : List (ErrTree α → List (String × V)))
      (m : List (String × V)), (m.map Prod.fst).Nodup →
      ((fns.foldl (fun m fn => (fn t).foldl (fun m kv => mapInsert kv.1 kv.2 m) m)
        m).map Prod.fst).Nodup := by
    intro fns
    induction fns with
    | nil => intro m h; simpa using h
    | cons fn rest ih =>
      intro m h
      simp only [List.foldl_cons]
      exact ih _ (foldl_mapInsert_keys_nodup (fn t) m h)
  exact h0 funcs [] (by simp)

/-!
## The pull-merge loops, re-expressed as folds over the yield sequence
-/

theorem iterRunState_eq_nil {α : Type} (s s₂ : IterState α)
    (h : iterNext s = (none, s₂)) : iterRunState s = [] := by
  rw [iterRunState.eq_def, h]

theorem iterRunState_eq_cons {α : Type} (s : IterState α) (r : ErrTree α)
    (s' : IterState α) (h : iterNext s = (some r, s')) :
    iterRunState s = r :: iterRunState s' := by
  rw [iterRunState.eq_def, h]

/-- Enough fuel makes the bounded unrolling agree with the full traversal. -/
theorem iterRunFuel_eq {α : Type} (fuel : Nat) :
    ∀ (s : IterState α), stateSize s < fuel → iterRunFuel fuel s = iterRunState s := by
  induction fuel with
  | zero => intro s h; omega
  | succ fuel ih =>
    intro s h
    rcases hn : iterNext s with ⟨o, s'⟩
    cases o with
    | none =>
      rw [iterRunState_eq_nil s s' hn]
      simp [iterRunFuel, hn]
    | some r =>
      rw [iterRunState_eq_cons s r s' hn]
      have hlt : stateSize s' < fuel :=
        Nat.lt_of_lt_of_le (iterNext_size_lt s r s' hn) (Nat.lt_succ_iff.mp h)
      simp [iterRunFuel, hn, ih s' hlt]

theorem allFieldsLoop_eq_foldl {α V : Type}
    (funcs : List (ErrTree α → List (String × V))) (slices : List String)
    (s : IterState α) (f : List (String × AggVal V)) :
    allFieldsLoop funcs slices s f =
      (iterRunState s).foldl (mergeNode funcs slices) f := by
  induction s, f using allFieldsLoop.induct funcs slices with
  | case1 s f s₂ h =>
    rw [allFieldsLoop.eq_def, h, iterRunState_eq_nil s s₂ h]
    rfl
  | case2 s f r s' h ih =>
    rw [allFieldsLoop.eq_def, h, iterRunState_eq_cons s r s' h]
    simpa using ih

theorem hasFieldLoop_eq_any {α V : Type}
    (funcs : List (ErrTree α → List (String × V))) (field : String)
    (s : IterState α) :
    hasFieldLoop funcs field s =
      (iterRunState s).any (fun n => containsKey field (nodeFields funcs n)) := by
  induction s using hasFieldLoop.induct funcs field with
  | case1 s s₂ h =>
    rw [hasFieldLoop.eq_def, h, iterRunState_eq_nil s s₂ h]
    rfl
  | case2 s r s' h hc =>
    rw [hasFieldLoop.eq_def, h, iterRunState_eq_cons s r s' h]
    simp [hc]
  | case3 s r s' h hc ih =>
    rw [hasFieldLoop.eq_def, h, iterRunState_eq_cons s r s' h]
    simp only [Bool.not_eq_true] at hc
    simp [hc, ih]

theorem hasFieldVisited_eq_take {α V : Type}
    (funcs : List (ErrTree α → List (String × V))) (field : String)
    (s : IterState α) :
    hasFieldVisited funcs field s =
      (iterRunState s).take
        (1 + (iterRunState s).findIdx (fun n => containsKey field (nodeFields funcs n))) := by
  induction s using hasFieldVisited.induct funcs field with
  | case1 s s₂ h =>
    rw [hasFieldVisited.eq_def, h, iterRunState_eq_nil s s₂ h]
    rfl
  | case2 s r s' h hc =>
    rw [hasFieldVisited.eq_def, h, iterRunState_eq_cons s r s' h]
    simp [List.findIdx_cons, hc]
  | case3 s r s' h hc ih =>
    rw [hasFieldVisited.eq_def, h, iterRunState_eq_cons s r s' h]
    simp only [Bool.not_eq_true] at hc
    simp only [List.findIdx_cons, hc, cond_false, ih]
    have h2 : ∀ i : Nat, 2 + i = (1 + i) + 1 := fun i => by omega
    rw [show (1 : Nat) + (List.findIdx (fun n => containsKey field (nodeFields funcs n))
          (iterRunState s') + 1) = (1 + List.findIdx (fun n => containsKey field
          (nodeFields funcs n)) (iterRunState s')) + 1 from by omega,
        List.take_succ_cons]
    simp

/-!
## Value-level lemmas about the aggregate
-/

theorem getLast?_cons_ne {β : Type} (a : β) (l : List β) (h : l ≠ []) :
    (a :: l).getLast? = l.getLast? := by
  cases l with
  | nil => exact absurd rfl h
  | cons b t => exact List.getLast?_cons_cons

/-- One `aggStep` touches only the key of its pair: every other key keeps its
value. -/
theorem lookupKey_aggStep_ne {V : Type} (slices : List String)
    (f : List (String × AggVal V)) (kv : String × V) (k : String)
    (hne : kv.1 ≠ k) :
    lookupKey k (aggStep slices f kv) = lookupKey k f := by
  unfold aggStep
  by_cases hs : slices.contains kv.1
  · rw [if_pos hs]
    cases hl : lookupKey kv.1 f with
    | none => exact lookupKey_mapInsert_ne k kv.1 _ f hne
    | some a =>
      cases a with
      | plain v => rfl
      | list vs => exact lookupKey_mapInsert_ne k kv.1 _ f hne
  · rw [if_neg hs]
    exact lookupKey_mapInsert_ne k kv.1 _ f hne

/-- A key is present after an `aggStep` iff it was present before or the step
carried exactly that key. -/
theorem containsKey_aggStep {V : Type} (slices : List String)
    (f : List (String × AggVal V)) (kv : String × V) (k : String) :
    containsKey k (aggStep slices f kv) =
      (containsKey k f || decide (kv.1 = k)) := by
  by_cases hne : kv.1 = k
  · subst hne
    unfold aggStep
    by_cases hs : slices.contains kv.1
    · rw [if_pos hs]
      cases hl : lookupKey kv.1 f with
      | none => simp [containsKey, lookupKey_mapInsert_self]
      | some a =>
        cases a with
        | plain v => simp [containsKey, hl]
        | list vs => simp [containsKey, lookupKey_mapInsert_self]
    · rw [if_neg hs]
      simp [containsKey, lookupKey_mapInsert_self]
  · have hl := lookupKey_aggStep_ne slices f kv k hne
    simp [containsKey, hl, hne]

theorem containsKey_foldl_aggStep {V : Type} (slices : List String)
    (m : List (String × V)) (k : String) :
    ∀ (f : List (String × AggVal V)),
      containsKey k (m.foldl (aggStep slices) f) =
        (containsKey k f || m.any (fun p => p.1 = k)) := by
  induction m with
  | nil => intro f; simp
  | cons kv rest ih =>
    intro f
    simp only [List.foldl_cons, List.any_cons]
    rw [ih, containsKey_aggStep]
    cases containsKey k f <;> cases hd : decide (kv.1 = k) <;> simp_all

theorem containsKey_mergeNode {α V : Type}
    (funcs : List (ErrTree α → List (String × V))) (slices : List String)
    (f : List (String × AggVal V)) (t : ErrTree α) (k : String) :
    containsKey k (mergeNode funcs slices f t) =
      (containsKey k f || containsKey k (nodeFields funcs t)) := by
  unfold mergeNode
  rw [containsKey_foldl_aggStep, ← containsKey_eq_any]

theorem containsKey_foldl_mergeNode {α V : Type}
    (funcs : List (ErrTree α → List (String × V))) (slices : List String)
    (ns : List (ErrTree α)) (k : String) :
    ∀ (f : List (String × AggVal V)),
      containsKey k (ns.foldl (mergeNode funcs slices) f) =
        (containsKey k f || ns.any (fun n => containsKey k (nodeFields funcs n))) := by
  induction ns with
  | nil => intro f; simp
  | cons n rest ih =>
    intro f
    simp only [List.foldl_cons, List.any_cons]
    rw [ih, containsKey_mergeNode]
    cases containsKey k f <;> cases hd : containsKey k (nodeFields funcs n) <;> simp_all

/-- Folding a per-node field set with an overwrite-policy key: the last pair
carrying the key wins; with no such pair the aggregate entry is untouched. -/
theorem lookupKey_foldl_aggStep_overwrite {V : Type} (slices : List String)
    (k : String) (hk : slices.contains k = false) (m : List (String × V)) :
    ∀ (f : List (String × AggVal V)),
      lookupKey k (m.foldl (aggStep slices) f) =
        (match (allVals k m).getLast? with
         | some v => some (AggVal.plain v)
         | none => lookupKey k f) := by
  induction m with
  | nil => intro f; rfl
  | cons kv rest ih =>
    intro f
    rcases kv with ⟨k', v⟩
    simp only [List.foldl_cons]
    by_cases hne : k' = k
    · subst hne
      have hstep : aggStep slices f (k', v) = mapInsert k' (AggVal.plain v) f := by
        unfold aggStep
        rw [if_neg (by simp_all)]
      rw [hstep, ih]
      have hcons : allVals k' ((k', v) :: rest) = v :: allVals k' rest := by
        simp [allVals, List.filterMap_cons]
      rw [hcons]
      cases hlast : (allVals k' rest).getLast? with
      | some w =>
        have hne2 : allVals k' rest ≠ [] := by
          intro hnil
          rw [hnil] at hlast
          exact Option.noConfusion hlast
        rw [getLast?_cons_ne v _ hne2, hlast]
      | none =>
        have hnil : allVals k' rest = [] := List.getLast?_eq_none_iff.mp hlast
        rw [hnil]
        simp [lookupKey_mapInsert_self]
    · rw [ih (aggStep slices f (k', v)),
        lookupKey_aggStep_ne slices f (k', v) k hne]
      have hcons : allVals k ((k', v) :: rest) = allVals k rest := by
        simp [allVals, List.filterMap_cons, hne]
      rw [hcons]

/-- Folding a per-node field set with an accumulate key whose aggregate entry
is already a list: every pair carrying the key appends, in order. -/
theorem lookupKey_foldl_aggStep_slice {V : Type} (slices : List String)
    (k : String) (hk : slices.contains k = true) (m : List (String × V)) :
    ∀ (f : List (String × AggVal V)) (vs : List V),
      lookupKey k f = some (AggVal.list vs) →
      lookupKey k (m.foldl (aggStep slices) f) =
        some (AggVal.list (vs ++ allVals k m)) := by
  induction m with
  | nil =>
    intro f vs hf
    simp only [List.foldl_nil, allVals, List.filterMap_nil, List.append_nil]
    exact hf
  | cons kv rest ih =>
    intro f vs hf
    rcases kv with ⟨k', v⟩
    simp only [List.foldl_cons]
    by_cases hne : k' = k
    · subst hne
      have hstep : aggStep slices f (k', v) =
          mapInsert k' (AggVal.list (vs ++ [v])) f := by
        have hk' : k' ∈ slices := by simpa using hk
        simp [aggStep, hk', hf]
      rw [hstep, ih _ (vs ++ [v]) (lookupKey_mapInsert_self k' _ f)]
      have hcons : allVals k' ((k', v) :: rest) = v :: allVals k' rest := by
        simp [allVals, List.filterMap_cons]
      rw [hcons]
      simp
    · rw [ih (aggStep slices f (k', v)) vs
        (by rw [lookupKey_aggStep_ne slices f (k', v) k hne]; exact hf)]
      have hcons : allVals k ((k', v) :: rest) = allVals k rest := by
        simp [allVals, List.filterMap_cons, hne]
      rw [hcons]

/-- Folding a per-node field set with an accumulate key not yet present: the
list is created at the first pair carrying the key. -/
theorem lookupKey_foldl_aggStep_slice_none {V : Type} (slices : List String)
    (k : String) (hk : slices.contains k = true) (m : List (String × V)) :
    ∀ (f : List (String × AggVal V)), lookupKey k f = none →
      lookupKey k (m.foldl (aggStep slices) f) =
        (match allVals k m with
         | [] => none
         | l => some (AggVal.list l)) := by
  induction m with
  | nil =>
    intro f hf
    simp only [List.foldl_nil, allVals, List.filterMap_nil]
    exact hf
  | cons kv rest ih =>
    intro f hf
    rcases kv with ⟨k', v⟩
    simp only [List.foldl_cons]
    by_cases hne : k' = k
    · subst hne
      have hstep : aggStep slices f (k', v) =
          mapInsert k' (AggVal.list [v]) f := by
        have hk' : k' ∈ slices := by simpa using hk
        simp [aggStep, hk', hf]
      rw [hstep,
        lookupKey_foldl_aggStep_slice slices k' hk rest _ [v]
          (lookupKey_mapInsert_self k' _ f)]
      have hcons : allVals k' ((k', v) :: rest) = v :: allVals k' rest := by
        simp [allVals, List.filterMap_cons]
      rw [hcons]
      simp
    · rw [ih (aggStep slices f (k', v))
        (by rw [lookupKey_aggStep_ne slices f (k', v) k hne]; exact hf)]
      have hcons : allVals k ((k', v) :: rest) = allVals k rest := by
        simp [allVals, List.filterMap_cons, hne]
      rw [hcons]

/-- On a map with unique keys, the values bound to a key are exactly the
looked-up value (or nothing). -/
theorem allVals_toList_of_nodup {V : Type} (k : String)
    (m : List (String × V)) (h : (m.map Prod.fst).Nodup) :
    allVals k m = (lookupKey k m).toList := by
  induction m with
  | nil => rfl
  | cons p rest ih =>
    rcases p with ⟨kp, vp⟩
    simp only [List.map_cons, List.nodup_cons] at h
    by_cases hk : kp = k
    · subst hk
      have hrest : allVals kp rest = [] := allVals_nil_of_not_mem_keys kp rest h.1
      simp only [allVals, List.filterMap_cons, if_pos, lookupKey] at hrest ⊢
      rw [hrest]
      rfl
    · simp only [allVals, List.filterMap_cons, if_neg hk, lookupKey]
      exact ih h.2

theorem lookupKey_mergeNode_overwrite {α V : Type}
    (funcs : List (ErrTree α → List (String × V))) (slices : List String)
    (k : String) (hk : slices.contains k = false)
    (f : List (String × AggVal V)) (t : ErrTree α) :
    lookupKey k (mergeNode funcs slices f t) =
      (match lookupKey k (nodeFields funcs t) with
       | some v => some (AggVal.plain v)
       | none => lookupKey k f) := by
  unfold mergeNode
  rw [lookupKey_foldl_aggStep_overwrite slices k hk _ f,
    allVals_getLast?_of_nodup k _ (nodeFields_keys_nodup funcs t)]

theorem lookupKey_foldl_mergeNode_overwrite {α V : Type}
    (funcs : List (ErrTree α → List (String × V))) (slices : List String)
    (k : String) (hk : slices.contains k = false) (ns : List (ErrTree α)) :
    ∀ (f : List (String × AggVal V)),
      lookupKey k (ns.foldl (mergeNode funcs slices) f) =
        (match (setterVals funcs k ns).getLast? with
         | some v => some (AggVal.plain v)
         | none => lookupKey k f) := by
  induction ns with
  | nil => intro f; rfl
  | cons n rest ih =>
    intro f
    simp only [List.foldl_cons]
    rw [ih (mergeNode funcs slices f n),
      lookupKey_mergeNode_overwrite funcs slices k hk f n]
    cases hn : lookupKey k (nodeFields funcs n) with
    | none =>
      have hcons : setterVals funcs k (n :: rest) = setterVals funcs k rest := by
        simp [setterVals, List.filterMap_cons, hn]
      rw [hcons]
    | some v =>
      have hcons : setterVals funcs k (n :: rest) = v :: setterVals funcs k rest := by
        simp [setterVals, List.filterMap_cons, hn]
      rw [hcons]
      cases hlast : (setterVals funcs k rest).getLast? with
      | some w =>
        have hne2 : setterVals funcs k rest ≠ [] := by
          intro hnil
          rw [hnil] at hlast
          exact Option.noConfusion hlast
        rw [getLast?_cons_ne v _ hne2, hlast]
      | none =>
        have hnil : setterVals funcs k rest = [] := List.getLast?_eq_none_iff.mp hlast
        rw [hnil]
        rfl

theorem lookupKey_mergeNode_slice {α V : Type}
    (funcs : List (ErrTree α → List (String × V))) (slices : List String)
    (k : String) (hk : slices.contains k = true)
    (f : List (String × AggVal V)) (t : ErrTree α) (vs : List V)
    (hf : lookupKey k f = some (AggVal.list vs)) :
    lookupKey k (mergeNode funcs slices f t) =
      some (AggVal.list (vs ++ (lookupKey k (nodeFields funcs t)).toList)) := by
  unfold mergeNode
  rw [lookupKey_foldl_aggStep_slice slices k hk _ f vs hf,
    allVals_toList_of_nodup k _ (nodeFields_keys_nodup funcs t)]

theorem lookupKey_mergeNode_slice_none {α V : Type}
    (funcs : List (ErrTree α → List (String × V))) (slices : List String)
    (k : String) (hk : slices.contains k = true)
    (f : List (String × AggVal V)) (t : ErrTree α)
    (hf : lookupKey k f = none) :
    lookupKey k (mergeNode funcs slices f t) =
      (match (lookupKey k (nodeFields funcs t)).toList with
       | [] => none
       | l => some (AggVal.list l)) := by
  unfold mergeNode
  rw [lookupKey_foldl_aggStep_slice_none slices k hk _ f hf,
    allVals_toList_of_nodup k _ (nodeFields_keys_nodup funcs t)]

theorem lookupKey_foldl_mergeNode_slice {α V : Type}
    (funcs : List (ErrTree α → List (String × V))) (slices : List String)
    (k : String) (hk : slices.contains k = true) (ns : List (ErrTree α)) :
    ∀ (f : List (String × AggVal V)) (vs : List V),
      lookupKey k f = some (AggVal.list vs) →
      lookupKey k (ns.foldl (mergeNode funcs slices) f) =
        some (AggVal.list (vs ++ setterVals funcs k ns)) := by
  induction ns with
  | nil =>
    intro f vs hf
    simp only [List.foldl_nil, setterVals, List.filterMap_nil, List.append_nil]
    exact hf
  | cons n rest ih =>
    intro f vs hf
    simp only [List.foldl_cons]
    cases hn : lookupKey k (nodeFields funcs n) with
    | none =>
      have hstep := lookupKey_mergeNode_slice funcs slices k hk f n vs hf
      rw [hn] at hstep
      simp only [Option.toList_none, List.append_nil] at hstep
      rw [ih (mergeNode funcs slices f n) vs hstep]
      have hcons : setterVals funcs k (n :: rest) = setterVals funcs k rest := by
        simp [setterVals, List.filterMap_cons, hn]
      rw [hcons]
    | some v =>
      have hstep := lookupKey_mergeNode_slice funcs slices k hk f n vs hf
      rw [hn] at hstep
      simp only [Option.toList_some] at hstep
      rw [ih (mergeNode funcs slices f n) (vs ++ [v]) hstep]
      have hcons : setterVals funcs k (n :: rest) = v :: setterVals funcs k rest := by
        simp [setterVals, List.filterMap_cons, hn]
      rw [hcons]
      simp

theorem lookupKey_foldl_mergeNode_slice_none {α V : Type}
    (funcs : List (ErrTree α → List (String × V))) (slices : List String)
    (k : String) (hk : slices.contains k = true) (ns : List (ErrTree α)) :
    ∀ (f : List (String × AggVal V)), lookupKey k f = none →
      lookupKey k (ns.foldl (mergeNode funcs slices) f) =
        (match setterVals funcs k ns with
         | [] => none
         | l => some (AggVal.list l)) := by
  induction ns with
  | nil =>
    intro f hf
    simp only [List.foldl_nil, setterVals, List.filterMap_nil]
    exact hf
  | cons n rest ih =>
    intro f hf
    simp only [List.foldl_cons]
    cases hn : lookupKey k (nodeFields funcs n) with
    | none =>
      have hstep := lookupKey_mergeNode_slice_none funcs slices k hk f n hf
      rw [hn] at hstep
      simp only [Option.toList_none] at hstep
      rw [ih (mergeNode funcs slices f n) hstep]
      have hcons : setterVals funcs k (n :: rest) = setterVals funcs k rest := by
        simp [setterVals, List.filterMap_cons, hn]
      rw [hcons]
    | some v =>
      have hstep := lookupKey_mergeNode_slice_none funcs slices k hk f n hf
      rw [hn] at hstep
      simp only [Option.toList_some] at hstep
      rw [lookupKey_foldl_mergeNode_slice funcs slices k hk rest
        (mergeNode funcs slices f n) [v] hstep]
      have hcons : setterVals funcs k (n :: rest) = v :: setterVals funcs k rest := by
        simp [setterVals, List.filterMap_cons, hn]
      rw [hcons]
      rfl

/-!
## Join decomposition depth (claim support)
-/

mutual
/-- No join node anywhere in the tree has a join node with successors as its
first successor.  Trees built from `fmt.Errorf("..%w", ...)` wrapping and
`errors.Join` of wrap/leaf values (as in the repository tests) satisfy it. -/
def goodJoins {α : Type} : ErrTree α → Bool
  | ErrTree.leaf _ => true
  | ErrTree.wrap _ c => goodJoins c
  | ErrTree.join _ [] => true
  | ErrTree.join _ (c :: cs) => !isNEJoin c && goodJoins c && goodJoinsList cs

/-- `goodJoins` for every tree in a list. -/
def goodJoinsList {α : Type} : List (ErrTree α) → Bool
  | [] => true
  | c :: cs => goodJoins c && goodJoinsList cs
end

theorem goodJoinsList_mem {α : Type} (cs : List (ErrTree α))
    (h : goodJoinsList cs = true) : ∀ c ∈ cs, goodJoins c = true := by
  induction cs with
  | nil => intro c hc; cases hc
  | cons c cs ih =>
    simp only [goodJoinsList, Bool.and_eq_true] at h
    intro d hd
    rcases List.mem_cons.mp hd with h1 | h1
    · rw [h1]; exact h.1
    · exact ih h.2 d h1

/-- One `Next()` call on a state whose candidates all satisfy `goodJoins`
yields a node with no non-empty successor list, and preserves the property. -/
theorem iterNext_good {α : Type} (s : IterState α)
    (hnext : ∀ t, s.next = some t → goodJoins t = true)
    (hq : ∀ t ∈ s.nextParent, goodJoins t = true)
    (r : ErrTree α) (s' : IterState α) (h : iterNext s = (some r, s')) :
    isNEJoin r = false ∧ (∀ t, s'.next = some t → goodJoins t = true) ∧
      (∀ t ∈ s'.nextParent, goodJoins t = true) := by
  cases hn : s.next with
  | none => simp [iterNext, hn] at h
  | some t =>
    have ht : goodJoins t = true := hnext t hn
    simp only [iterNext, hn] at h
    -- analyse the split and the candidate shape
    cases t with
    | leaf a =>
      simp only [splitJoin, unwrapOne] at h
      cases hp : s.nextParent with
      | nil =>
        rw [hp] at h
        cases h
        refine ⟨rfl, ?_, ?_⟩
        · intro t' ht'; cases ht'
        · intro t' ht'; cases ht'
      | cons p ps =>
        rw [hp] at h
        cases h
        refine ⟨rfl, ?_, ?_⟩
        · intro t' ht'
          cases ht'
          exact hq p (by rw [hp]; exact List.mem_cons_self p ps)
        · intro t' ht'
          exact hq t' (by rw [hp]; exact List.mem_cons_of_mem p ht')
    | wrap a c =>
      simp only [splitJoin, unwrapOne] at h
      cases h
      refine ⟨rfl, ?_, hq⟩
      intro t' ht'
      cases ht'
      simpa [goodJoins] using ht
    | join a cs =>
      cases cs with
      | nil =>
        simp only [splitJoin, unwrapOne] at h
        cases hp : s.nextParent with
        | nil =>
          rw [hp] at h
          cases h
          refine ⟨rfl, ?_, ?_⟩
          · intro t' ht'; cases ht'
          · intro t' ht'; cases ht'
        | cons p ps =>
          rw [hp] at h
          cases h
          refine ⟨rfl, ?_, ?_⟩
          · intro t' ht'
            cases ht'
            exact hq p (by rw [hp]; exact List.mem_cons_self p ps)
          · intro t' ht'
            exact hq t' (by rw [hp]; exact List.mem_cons_of_mem p ht')
      | cons c cs' =>
        simp only [goodJoins, Bool.and_eq_true, Bool.not_eq_true'] at ht
        obtain ⟨⟨hcne, hcgood⟩, hlist⟩ := ht
        have hqall : ∀ t' ∈ cs' ++ s.nextParent, goodJoins t' = true := by
          intro t' ht'
          rcases List.mem_append.mp ht' with h1 | h1
          · exact goodJoinsList_mem cs' hlist t' h1
          · exact hq t' h1
        have hwrap : ∀ ch, unwrapOne c = some ch → goodJoins ch = true := by
          intro ch hch
          cases c with
          | wrap b cc =>
            simp only [unwrapOne, Option.some.injEq] at hch
            rw [← hch]
            simpa [goodJoins] using hcgood
          | leaf b => simp [unwrapOne] at hch
          | join b cc => simp [unwrapOne] at hch
        simp only [splitJoin] at h
        cases hu : unwrapOne c with
        | some ch =>
          rw [hu] at h
          cases h
          refine ⟨hcne, ?_, hqall⟩
          intro t' ht'
          cases ht'
          exact hwrap _ hu
        | none =>
          rw [hu] at h
          cases hp : cs' ++ s.nextParent with
          | nil =>
            rw [hp] at h
            cases h
            refine ⟨hcne, ?_, ?_⟩
            · intro t' ht'; cases ht'
            · intro t' ht'; cases ht'
          | cons p ps =>
            rw [hp] at h
            cases h
            refine ⟨hcne, ?_, ?_⟩
            · intro t' ht'
              cases ht'
              exact hqall p (by rw [hp]; exact List.mem_cons_self p ps)
            · intro t' ht'
              exact hqall t' (by rw [hp]; exact List.mem_cons_of_mem p ht')

/-- On a `goodJoins` state the whole yield sequence is free of nodes with a
non-empty multi-successor list. -/
theorem iterRunState_no_NEJoin {α : Type} (s : IterState α) :
    (∀ t, s.next = some t → goodJoins t = true) →
    (∀ t ∈ s.nextParent, goodJoins t = true) →
    ∀ r ∈ iterRunState s, isNEJoin r = false := by
  induction s using iterRunState.induct with
  | case1 s s₂ h =>
    intro _ _ r hr
    rw [iterRunState_eq_nil s s₂ h] at hr
    cases hr
  | case2 s r s' h ih =>
    intro hnext hq r' hr'
    rw [iterRunState_eq_cons s r s' h] at hr'
    obtain ⟨hne, hnext', hq'⟩ := iterNext_good s hnext hq r s' h
    rcases List.mem_cons.mp hr' with h1 | h1
    · rw [h1]; exact hne
    · exact ih hnext' hq' r' h1

/-!
## Concrete inputs used by the claims
-/

/-- `FieldKeyLocation`. -/
def FieldKeyLocation : String := "error_location"

/-- `NewInstance()`: gather `FieldKeyLocation` as a slice, read fields with
the default extractor (the create hooks it also installs only construct
per-node data and are not part of the traversal/aggregation engine). -/
def NewInstance {V : Type} : Instance V :=
  ⟨[FieldKeyLocation], [DefaultFieldsFunc]⟩

open ErrTree in
/-- The tree of `TestBreadthFirst`: each labelled node built with
`fmt.Errorf("<label>\n%w", ...)` wraps either a plain error or an unlabelled
`errors.Join` node that carries the multiple successors. -/
def testTree : ErrTree String :=
  wrap "a" (join "" [
    wrap "b" (join "" [wrap "c" (leaf "d"), leaf "e"]),
    wrap "f" (wrap "g" (join "" [leaf "h", leaf "i"]))])

open ErrTree in
/-- Root `R` (fields `x=2`) wraps `M` (no fields) wraps `L` (fields `x=1`). -/
def chainC2 : ErrTree (Fielded Nat) :=
  wrap (some [("x", 2)]) (wrap none (leaf (some [("x", 1)])))

open ErrTree in
/-- The same shape as `chainC2`, for the general overwrite claim. -/
def chainC3 : ErrTree (Fielded Nat) :=
  wrap (some [("x", 2)]) (wrap none (leaf (some [("x", 1)])))

open ErrTree in
/-- Three nodes each setting the accumulate key `error_location`, to the
values 10, 20, 30 in visitation order. -/
def chainC4 : ErrTree (Fielded Nat) :=
  wrap (some [(FieldKeyLocation, 10)])
    (wrap (some [(FieldKeyLocation, 20)]) (leaf (some [(FieldKeyLocation, 30)])))

open ErrTree in
/-- A join node whose first successor is itself a join node (carrying field
`jk=7`): the outer join is decomposed, the inner one is returned as-is. -/
def cexC9tree : ErrTree (Fielded Nat) :=
  join none [join (some [("jk", 7)]) [leaf none, leaf none],
    leaf (some [("c", 1)])]

/-- Iterating the state transition of `Next()` a number of times. -/
def stepN {α : Type} : Nat → IterState α → IterState α
  | 0, s => s
  | n + 1, s => stepN n (iterNext s).2

/-!
## The claims
-/

/-- C1: for the tree in which `a` joins `{b,f}`, `b` joins `{c,e}`, `c` wraps
`d`, `f` wraps `g` and `g` joins `{h,i}` — encoded as in the repository test
`TestBreadthFirst`, where each labelled node wraps and the multiple
successors sit on unlabelled join nodes — iterating
`NewDepthFirstIterator(a)` to exhaustion yields exactly
`[a,b,c,d,e,f,g,h,i]`: pre-order, depth-first, left-to-right. -/
theorem C1_preorder_sequence :
    (iterate (some testTree)).map ErrTree.payload =
      ["a", "b", "c", "d", "e", "f", "g", "h", "i"] := by
  rw [iterate, ← iterRunFuel_eq 20 (NewDepthFirstIterator (some testTree)) (by decide)]
  decide

/-- C2, counterexample: with root `R` (fields `x=2`) wrapping `M` wrapping
`L` (fields `x=1`), `AllFields(R)` does not map `x` to the ancestor value 2,
contrary to the claim. -/
theorem C2_counterexample :
    lookupKey "x" (AllFields NewInstance (some chainC2)) ≠
      some (AggVal.plain 2) := by
  rw [AllFields, allFieldsLoop_eq_foldl, ← iterRunFuel_eq 10 _ (by decide)]
  decide

/-- C2, amended: `AllFields(R)` maps `x` to 1 — the value of the descendant
`L`, which is visited last; later-visited nodes overwrite earlier-visited
ones for overwrite-policy keys. -/
theorem C2_amended_descendant_wins :
    lookupKey "x" (AllFields NewInstance (some chainC2)) =
      some (AggVal.plain 1) := by
  rw [AllFields, allFieldsLoop_eq_foldl, ← iterRunFuel_eq 10 _ (by decide)]
  decide

/-- C3: for every tree and configuration and every key not marked
accumulate-as-list that at least one visited node sets, the `AllFields`
entry for the key is the value contributed by the node visited latest in
traversal order among those setting it; in particular a descendant's value
overwrites its ancestor's. -/
theorem C3_last_visited_setter_wins {V : Type} (cfg : Instance V)
    (err : Option (ErrTree (Fielded V))) (k : String) (v : V)
    (hk : cfg.FieldsAsSlice.contains k = false)
    (hlast : (setterVals (effFieldFuncs cfg) k (iterate err)).getLast? = some v) :
    lookupKey k (AllFields cfg err) = some (AggVal.plain v) := by
  rw [iterate] at hlast
  rw [AllFields, allFieldsLoop_eq_foldl,
    lookupKey_foldl_mergeNode_overwrite (effFieldFuncs cfg) cfg.FieldsAsSlice k hk
      (iterRunState (NewDepthFirstIterator err)) [], hlast]

/-- Witness for C3: on the `R(x=2) → M → L(x=1)` chain under the default
configuration the latest setter of `x` is `L` and `AllFields` maps `x` to
its value 1. -/
theorem C3_witness :
    (NewInstance : Instance Nat).FieldsAsSlice.contains "x" = false ∧
    (setterVals (effFieldFuncs (NewInstance : Instance Nat)) "x"
      (iterate (some chainC3))).getLast? = some 1 ∧
    lookupKey "x" (AllFields NewInstance (some chainC3)) =
      some (AggVal.plain 1) := by
  have h1 : (NewInstance : Instance Nat).FieldsAsSlice.contains "x" = false := by
    decide
  have h2 : (setterVals (effFieldFuncs (NewInstance : Instance Nat)) "x"
      (iterate (some chainC3))).getLast? = some 1 := by
    rw [iterate, ← iterRunFuel_eq 10 _ (by decide)]
    decide
  exact ⟨h1, h2, C3_last_visited_setter_wins NewInstance (some chainC3) "x" 1 h1 h2⟩

/-- C4: for every key marked accumulate-as-list, `AllFields` collects the
per-node values for the key into an ordered list in visitation order,
creating the list at the first occurrence (and leaving the key absent when
no visited node sets it). -/
theorem C4_accumulate_as_list {V : Type} (cfg : Instance V)
    (err : Option (ErrTree (Fielded V))) (k : String)
    (hk : cfg.FieldsAsSlice.contains k = true) :
    lookupKey k (AllFields cfg err) =
      (match setterVals (effFieldFuncs cfg) k (iterate err) with
       | [] => none
       | l => some (AggVal.list l)) := by
  rw [AllFields, allFieldsLoop_eq_foldl,
    lookupKey_foldl_mergeNode_slice_none (effFieldFuncs cfg) cfg.FieldsAsSlice k hk
      (iterRunState (NewDepthFirstIterator err)) [] rfl, iterate]

/-- Witness for C4: with `error_location` marked accumulate-as-list and three
nodes setting it to 10, 20, 30 in visitation order, `AllFields` yields the
list `[10, 20, 30]`. -/
theorem C4_witness :
    (NewInstance : Instance Nat).FieldsAsSlice.contains FieldKeyLocation = true ∧
    lookupKey FieldKeyLocation (AllFields NewInstance (some chainC4)) =
      some (AggVal.list [10, 20, 30]) := by
  have h1 : (NewInstance : Instance Nat).FieldsAsSlice.contains FieldKeyLocation
      = true := by decide
  refine ⟨h1, ?_⟩
  rw [C4_accumulate_as_list NewInstance (some chainC4) FieldKeyLocation h1,
    iterate, ← iterRunFuel_eq 10 _ (by decide)]
  decide

/-- C5: for every tree and configuration, `HasField` agrees with key
presence in `AllFields`, and the nodes it pulls from its iterator are
exactly the traversal prefix up to and including the first node whose
per-node field set contains the key (the whole traversal when none does). -/
theorem C5_hasField_agrees_with_allFields {V : Type} (cfg : Instance V)
    (err : Option (ErrTree (Fielded V))) (k : String) :
    HasField cfg err k = containsKey k (AllFields cfg err) ∧
    hasFieldVisited (effFieldFuncs cfg) k (NewDepthFirstIterator err) =
      (iterate err).take
        (1 + (iterate err).findIdx
          (fun n => containsKey k (nodeFields (effFieldFuncs cfg) n))) := by
  constructor
  · rw [HasField, hasFieldLoop_eq_any, AllFields, allFieldsLoop_eq_foldl,
      containsKey_foldl_mergeNode]
    simp [containsKey, lookupKey]
  · rw [hasFieldVisited_eq_take, iterate]

/-- Helper for the nil-root claim: the category loop on an exhausted state. -/
theorem hasCategoryLoop_of_exhausted {α V : Type} [DecidableEq V]
    (funcs : List (ErrTree α → List (String × V))) (category : V)
    (s s₂ : IterState α) (h : iterNext s = (none, s₂)) :
    hasCategoryLoop funcs category s = false := by
  rw [hasCategoryLoop.eq_def, h]

/-- C6: on a nil root, `AllFields` returns the empty (still allocated)
mapping, `HasField` and `HasCategory` return false, and the iterator is
immediately exhausted: its first `Next()` returns nil (leaving the state
unchanged) and `HasNext()` is false. -/
theorem C6_nil_root {V : Type} [DecidableEq V] (cfg : Instance V)
    (k : String) (c : V) :
    AllFields cfg none = [] ∧
    HasField cfg none k = false ∧
    HasCategory cfg none c = false ∧
    iterNext (NewDepthFirstIterator (none : Option (ErrTree (Fielded V)))) =
      (none, NewDepthFirstIterator none) ∧
    hasNext (NewDepthFirstIterator (none : Option (ErrTree (Fielded V)))) = false := by
  refine ⟨?_, ?_, ?_, rfl, rfl⟩
  · rw [AllFields, allFieldsLoop_eq_foldl,
      iterRunState_eq_nil (NewDepthFirstIterator none) (NewDepthFirstIterator none) rfl]
    rfl
  · rw [HasField, hasFieldLoop_eq_any,
      iterRunState_eq_nil (NewDepthFirstIterator none) (NewDepthFirstIterator none) rfl]
    rfl
  · exact hasCategoryLoop_of_exhausted (effFieldFuncs cfg) c
      (NewDepthFirstIterator none) (NewDepthFirstIterator none) rfl

/-- C7: once a `Next()` call has returned nil, the state is the exhausted
one and every later `Next()` call returns nil with the state unchanged. -/
theorem C7_exhaustion_absorbing {α : Type} (s : IterState α)
    (h : (iterNext s).1 = none) :
    ∀ n : Nat, iterNext (stepN n s) = (none, s) := by
  have hn : s.next = none := by
    cases hs : s.next with
    | none => rfl
    | some t =>
      have hi := iterNext_yield_isSome s
      rw [h, hs] at hi
      simp at hi
  obtain ⟨o, P⟩ := s
  cases hn
  have hstep : iterNext (⟨none, P⟩ : IterState α) = (none, ⟨none, P⟩) := rfl
  intro n
  have hfix : stepN n (⟨none, P⟩ : IterState α) = ⟨none, P⟩ := by
    induction n with
    | zero => rfl
    | succ m ih => simp [stepN, hstep, ih]
  rw [hfix, hstep]

/-- Witness for C7: an exhausted iterator still returns nil after two more
`Next()` calls, with unchanged state. -/
theorem C7_witness :
    iterNext (stepN 2 (NewDepthFirstIterator (none : Option (ErrTree String)))) =
      (none, NewDepthFirstIterator (none : Option (ErrTree String))) :=
  C7_exhaustion_absorbing (NewDepthFirstIterator none) rfl 2

/-- C8: `HasNext()` is true exactly when the next `Next()` call would return
a non-nil node; being a pure function of the state (it only reads the `next`
field), it consumes nothing. -/
theorem C8_hasNext_iff_next_yields {α : Type} (s : IterState α) :
    hasNext s = (iterNext s).1.isSome := by
  rw [hasNext]
  exact (iterNext_yield_isSome s).symm

/-- C9, counterexample: on a join node whose first successor is itself a join
node, `Next()` returns the inner join undecomposed — a node with a non-empty
multi-successor list — and `AllFields` does run the extractors on it, so its
field `jk=7` reaches the result, contrary to the claim. -/
theorem C9_counterexample :
    (iterate (some cexC9tree)).any isNEJoin = true ∧
    lookupKey "jk" (AllFields NewInstance (some cexC9tree)) =
      some (AggVal.plain 7) := by
  constructor
  · rw [iterate, ← iterRunFuel_eq 10 _ (by decide)]
    decide
  · rw [AllFields, allFieldsLoop_eq_foldl, ← iterRunFuel_eq 10 _ (by decide)]
    decide

/-- C9, amended: `Next()` decomposes a join candidate one level only, so the
guarantee holds on trees where no join node has a join node as its first
successor (as in trees built from single wrapping plus `errors.Join` of
wrap/leaf nodes): there the iterator never yields a node with a non-empty
multi-successor list, hence extractors never run on such nodes. -/
theorem C9_amended_no_nested_first_join {α : Type} (t : ErrTree α)
    (h : goodJoins t = true) :
    (iterate (some t)).all (fun r => !isNEJoin r) = true := by
  rw [List.all_eq_true]
  intro r hr
  rw [iterate] at hr
  have h1 : ∀ t', (NewDepthFirstIterator (some t)).next = some t' →
      goodJoins t' = true := by
    intro t' ht'
    injection ht' with ht'
    rw [← ht']
    exact h
  have h2 : ∀ t' ∈ (NewDepthFirstIterator (some t)).nextParent,
      goodJoins t' = true := by
    intro t' ht'
    cases ht'
  have hne := iterRunState_no_NEJoin (NewDepthFirstIterator (some t)) h1 h2 r hr
  rw [hne]
  rfl

/-- Witness for C9 (amended) at the tree of `TestBreadthFirst`, which has no
join node as a first successor of a join node. -/
theorem C9_witness :
    goodJoins testTree = true ∧
    (iterate (some testTree)).all (fun r => !isNEJoin r) = true := by
  have h : goodJoins testTree = true := by decide
  exact ⟨h, C9_amended_no_nested_first_join testTree h⟩

/-- C10: a node whose `Unwrap() []error` returns an empty list is not
decomposed: `Next()` returns the node itself and treats it as a leaf — no
successor is derived from it, and the following candidate comes from the
pending queue (or the iterator is exhausted). -/
theorem C10_empty_join_returned_as_leaf {α : Type} (a : α)
    (P : List (ErrTree α)) :
    iterNext ⟨some (ErrTree.join a []), P⟩ =
      (some (ErrTree.join a []), ⟨P.head?, P.tail⟩) := by
  cases P with
  | nil => rfl
  | cons p ps => rfl

end Ctxerr
